import Mathlib

/-!
Shallow embedding of the `numcodecs-combinators` codec-composition core:
the `CodecStack` pipeline (`src/numcodecs_combinators/stack.py`), the
observer protocol and instrumented dispatch
(`src/numcodecs_combinators/observers/abc.py`), and the byte-size and
wall-time observers (`observers/bytesize.py`, `observers/walltime.py`).

Buffers are modelled as numeric arrays carrying shape, dtype, raw byte
contents, and a contiguity flag.  Python exceptions are modelled with
`Except Err`; stateful observer objects are modelled by explicit state
passing, where a raised exception still returns the state as mutated so
far (Python mutations persist past a raise).  `time.perf_counter()` is
modelled by a counter stored in the wall-time observer state that is
incremented on every reading.
-/

/-- Error outcomes of the embedded operations: `observerContractViolation`
models the `AssertionError` raised by the wall-time observer's contract
assertions, `codecFailure` an arbitrary exception raised by a codec stage,
`sizeMismatch` the error raised by `numcodecs.compat.ndarray_copy` when a
supplied output buffer has the wrong size, `keyError` a Python `KeyError`,
`indexError` a Python `IndexError` (pop from an empty list), and
`unknownCodec` a failed codec-registry lookup. -/
inductive Err where
  | observerContractViolation
  | codecFailure (msg : String)
  | sizeMismatch
  | keyError
  | indexError
  | unknownCodec
deriving DecidableEq, Repr

/-- A numpy element type: its name and the byte size of one element. -/
structure Dtype where
  name : String
  itemsize : Nat
deriving DecidableEq, Repr

/-- A buffer: a numeric array with shape and dtype metadata, raw byte
contents (`nbytes` is their length), and a flag recording whether the
buffer is already in the canonical contiguous representation. -/
structure Buf where
  shape : List Nat
  dtype : Dtype
  bytes : List Nat
  contiguous : Bool
deriving DecidableEq, Repr

/-- `numpy.ndarray.nbytes`: the byte size of the buffer. -/
def Buf.nbytes (b : Buf) : Nat := b.bytes.length

/-- Models `numcodecs.compat.ensure_contiguous_ndarray_like(buf, flatten=False)`
(external collaborator): converts any supported input representation into
the canonical contiguous array representation, preserving shape, dtype and
contents. -/
def ensure_contiguous_ndarray_like (b : Buf) : Buf := { b with contiguous := true }

/-- Models `numpy.ndarray.reshape(shape)`: same buffer viewed with a new
shape. -/
def Buf.reshape (b : Buf) (shape : List Nat) : Buf := { b with shape := shape }

/-- Models `np.empty(shape=shape, dtype=dtype)`: a freshly allocated
contiguous buffer of the given shape and dtype (contents unspecified;
zero-filled here). -/
def npEmpty (shape : List Nat) (dtype : Dtype) : Buf :=
  { shape := shape
    dtype := dtype
    bytes := List.replicate ((shape.foldr (· * ·) 1) * dtype.itemsize) 0
    contiguous := true }

/-- Models `numcodecs.compat.ndarray_copy(src, dst)` (external
collaborator): with `dst = None` it returns `src` unchanged; otherwise it
copies the contents of `src` into `dst` and returns `dst`, failing when
the byte sizes do not match. -/
def ndarray_copy (src : Buf) (out : Option Buf) : Except Err Buf :=
  match out with
  | none => .ok src
  | some o =>
    if src.nbytes = o.nbytes then .ok { o with bytes := src.bytes }
    else .error .sizeMismatch

/-- A codec configuration: either an opaque per-codec config (its stable
string id plus a parameter fingerprint), or the config of a codec stack,
`{id: "combinators.stack", codecs: [...]}`. -/
inductive Config where
  | leaf (codecId : String) (params : Nat)
  | stackCfg (codecs : List Config)

/-- A codec capability (external): `cid` models its Python instance
identity `id(codec)`, `rep` its `repr`, `cfg` its `get_config()`, and
`enc`/`dec` its `encode`/`decode` operations (which may raise). -/
structure Codec where
  cid : Nat
  rep : String
  cfg : Config
  enc : Buf → Except Err Buf
  dec : Buf → Option Buf → Except Err Buf

/-- Association-list lookup, modelling a Python `dict` read. -/
def alookup {κ α : Type} [DecidableEq κ] : List (κ × α) → κ → Option α
  | [], _ => none
  | (k1, v1) :: rest, k => if k1 = k then some v1 else alookup rest k

/-- Python `dict` assignment `d[k] = v`: updates the value in place if the
key is present (keeping its position), otherwise appends the new binding
(insertion order). -/
def dictInsert {κ α : Type} [DecidableEq κ] : List (κ × α) → κ → α → List (κ × α)
  | [], k, v => [(k, v)]
  | (k1, v1) :: rest, k, v =>
    if k1 = k then (k1, v) :: rest else (k1, v1) :: dictInsert rest k v

/-- Python `defaultdict(list)` append `d[k].append(v)`: appends `v` to the
list bound to `k`, creating the binding `k ↦ [v]` at the end if absent. -/
def appendEntry {κ α : Type} [DecidableEq κ] : List (κ × List α) → κ → α → List (κ × List α)
  | [], k, v => [(k, [v])]
  | (k1, l) :: rest, k, v =>
    if k1 = k then (k1, l ++ [v]) :: rest else (k1, l) :: appendEntry rest k v

/-- Number of bindings of key `k` in an association list. -/
def countKey {κ α : Type} [DecidableEq κ] (k : κ) (l : List (κ × α)) : Nat :=
  (l.map Prod.fst).count k

/-- Python `list.pop()`: removes and returns the last element, leaving the
prefix; `none` models the `IndexError` on an empty list. -/
def popLast {α : Type} : List α → Option (List α × α)
  | [] => none
  | [a] => some ([], a)
  | a :: rest => (popLast rest).map (fun p => (a :: p.1, p.2))

/-- The four observer hook points of `CodecObserver`
(`observers/abc.py`), over an explicit observer state `σ`; a hook that
raises is modelled by an `Err` result. -/
structure Hooks (σ : Type) where
  pre_encode : Codec → Buf → σ → Except Err σ
  post_encode : Codec → Buf → Buf → σ → Except Err σ
  pre_decode : Codec → Buf → Option Buf → σ → Except Err σ
  post_decode : Codec → Buf → Buf → σ → Except Err σ

/-- Runs one hook of every observer in list order, threading the state;
on a raise the state mutated so far is kept and the error propagates. -/
def runHooks {σ : Type} (f : Hooks σ → σ → Except Err σ) :
    List (Hooks σ) → σ → Except Err Unit × σ
  | [], st => (.ok (), st)
  | h :: hs, st =>
    match f h st with
    | .ok st1 => runHooks f hs st1
    | .error e => (.error e, st)

/-- Models `encode_with_observers(codec, buf, observers=obs)`
(`observers/abc.py`, lines 82-98) for an opaque (non-`ObservableCodec`)
codec: every observer's `pre_encode` fires in list order, then the codec
encodes, then every observer's `post_encode` fires with the original
input and the produced output.  A raise anywhere propagates, keeping the
observer state mutated so far. -/
def encode_with_observers {σ : Type} (obs : List (Hooks σ)) (codec : Codec) (buf : Buf)
    (st : σ) : Except Err Buf × σ :=
  match runHooks (fun h => h.pre_encode codec buf) obs st with
  | (.error e, st1) => (.error e, st1)
  | (.ok _, st1) =>
    match codec.enc buf with
    | .error e => (.error e, st1)
    | .ok encoded =>
      match runHooks (fun h => h.post_encode codec buf encoded) obs st1 with
      | (.error e, st2) => (.error e, st2)
      | (.ok _, st2) => (.ok encoded, st2)

/-- Models `decode_with_observers(codec, buf, out=out, observers=obs)`
(`observers/abc.py`, lines 101-121) for an opaque codec. -/
def decode_with_observers {σ : Type} (obs : List (Hooks σ)) (codec : Codec) (buf : Buf)
    (out : Option Buf) (st : σ) : Except Err Buf × σ :=
  match runHooks (fun h => h.pre_decode codec buf out) obs st with
  | (.error e, st1) => (.error e, st1)
  | (.ok _, st1) =>
    match codec.dec buf out with
    | .error e => (.error e, st1)
    | .ok decoded =>
      match runHooks (fun h => h.post_decode codec buf decoded) obs st1 with
      | (.error e, st2) => (.error e, st2)
      | (.ok _, st2) => (.ok decoded, st2)

/-- The loop body of `CodecStack.encode` (`stack.py`, lines 89-96): each
stage receives the canonicalized current buffer through instrumented
dispatch; the last stage's output is returned as-is. -/
def CodecStack.encodeGo {σ : Type} (obs : List (Hooks σ)) :
    List Codec → Buf → σ → Except Err Buf × σ
  | [], buf, st => (.ok buf, st)
  | c :: rest, buf, st =>
    match encode_with_observers obs c (ensure_contiguous_ndarray_like buf) st with
    | (.error e, st1) => (.error e, st1)
    | (.ok enc, st1) => CodecStack.encodeGo obs rest enc st1

/-- Models `CodecStack.encode(buf, observers=obs)` over the stack's
ordered codec sequence. -/
def CodecStack.encode {σ : Type} (obs : List (Hooks σ)) (s : List Codec) (buf : Buf)
    (st : σ) : Except Err Buf × σ :=
  CodecStack.encodeGo obs s buf st

/-- The loop body of `CodecStack.decode` (`stack.py`, lines 123-131):
iterates over the already-reversed codec sequence, each stage receiving
the canonicalized current buffer and `out=None`. -/
def CodecStack.decodeGo {σ : Type} (obs : List (Hooks σ)) :
    List Codec → Buf → σ → Except Err Buf × σ
  | [], buf, st => (.ok buf, st)
  | c :: rest, buf, st =>
    match decode_with_observers obs c (ensure_contiguous_ndarray_like buf) none st with
    | (.error e, st1) => (.error e, st1)
    | (.ok dec, st1) => CodecStack.decodeGo obs rest dec st1

/-- Models `CodecStack.decode(buf, out=out, observers=obs)`: every codec
in reverse order with `out=None`, then `ndarray_copy(decoded, out)`. -/
def CodecStack.decode {σ : Type} (obs : List (Hooks σ)) (s : List Codec) (buf : Buf)
    (out : Option Buf) (st : σ) : Except Err Buf × σ :=
  match CodecStack.decodeGo obs s.reverse buf st with
  | (.error e, st1) => (.error e, st1)
  | (.ok d, st1) => (ndarray_copy d out, st1)

/-- A silhouette: the `(shape, dtype)` record captured for a stage's
input during `encode_decode`. -/
abbrev Sil := List Nat × Dtype

/-- The encode loop of `CodecStack.encode_decode` (`stack.py`, lines
155-164): before each stage a silhouette of the (already canonical)
stage input is appended, the stage encodes via instrumented dispatch,
and the output is canonicalized for the next stage. -/
def CodecStack.encodeDecodeEncGo {σ : Type} (obs : List (Hooks σ)) :
    List Codec → Buf → List Sil → σ → Except Err (Buf × List Sil) × σ
  | [], buf, sils, st => (.ok (buf, sils), st)
  | c :: rest, buf, sils, st =>
    match encode_with_observers obs c buf st with
    | (.error e, st1) => (.error e, st1)
    | (.ok enc, st1) =>
      CodecStack.encodeDecodeEncGo obs rest (ensure_contiguous_ndarray_like enc)
        (sils ++ [(buf.shape, buf.dtype)]) st1

/-- The decode loop of `CodecStack.encode_decode` (`stack.py`, lines
168-176): iterates over the already-reversed codec sequence; each stage
pops the most recently pushed silhouette, pre-allocates `np.empty` of
that shape and dtype as `out`, decodes via instrumented dispatch, and
reshapes the result to the recorded shape. -/
def CodecStack.encodeDecodeDecGo {σ : Type} (obs : List (Hooks σ)) :
    List Codec → Buf → List Sil → σ → Except Err Buf × σ
  | [], buf, _, st => (.ok buf, st)
  | c :: rest, buf, sils, st =>
    match popLast sils with
    | none => (.error .indexError, st)
    | some (sils1, sil) =>
      match decode_with_observers obs c buf (some (npEmpty sil.1 sil.2)) st with
      | (.error e, st1) => (.error e, st1)
      | (.ok dec, st1) =>
        CodecStack.encodeDecodeDecGo obs rest (dec.reshape sil.1) sils1 st1

/-- Models `CodecStack.encode_decode(buf, observers=obs)` (`stack.py`,
lines 152-178): canonicalizes the input, runs the silhouette-recording
encode loop, then the silhouette-popping decode loop over the reversed
codec sequence. -/
def CodecStack.encode_decode {σ : Type} (obs : List (Hooks σ)) (s : List Codec) (buf : Buf)
    (st : σ) : Except Err Buf × σ :=
  match CodecStack.encodeDecodeEncGo obs s (ensure_contiguous_ndarray_like buf) [] st with
  | (.error e, st1) => (.error e, st1)
  | (.ok (enc, sils), st1) => CodecStack.encodeDecodeDecGo obs s.reverse enc sils st1

/-- Models `CodecStack.get_config()` (`stack.py`, lines 180-196):
`{id: "combinators.stack", codecs: [each stage's own config, in order]}`. -/
def CodecStack.get_config (s : List Codec) : Config :=
  .stackCfg (s.map (fun c => c.cfg))

/-- An argument to the `CodecStack` constructor: an already-instantiated
codec or a serialized configuration. -/
inductive CodecArg where
  | codec (c : Codec)
  | cfg (c : Config)

/-- Models `CodecStack.__new__` (`stack.py`, lines 60-69): each argument
is kept if it is already a codec, otherwise resolved through the external
registry `numcodecs.registry.get_codec`. -/
def CodecStack.mk (registry : Config → Except Err Codec) :
    List CodecArg → Except Err (List Codec)
  | [] => .ok []
  | .codec c :: rest =>
    match CodecStack.mk registry rest with
    | .error e => .error e
    | .ok cs => .ok (c :: cs)
  | .cfg cf :: rest =>
    match registry cf with
    | .error e => .error e
    | .ok c =>
      match CodecStack.mk registry rest with
      | .error e => .error e
      | .ok cs => .ok (c :: cs)

/-- Models `CodecStack.from_config(config)` (`stack.py`, lines 198-214):
`cls(*config["codecs"])`; reading `config["codecs"]` of a non-stack
config raises `KeyError`. -/
def CodecStack.from_config (registry : Config → Except Err Codec) (config : Config) :
    Except Err (List Codec) :=
  match config with
  | .stackCfg cs => CodecStack.mk registry (cs.map (fun c => .cfg c))
  | .leaf _ _ => .error .keyError

/-- An event recorded by a test observer that traces every hook
invocation together with its arguments (codec instance identity, buffer,
and for `pre_decode` the `out` argument it received). -/
inductive TraceEvent where
  | preE (cid : Nat) (buf : Buf)
  | postE (cid : Nat) (buf : Buf) (encoded : Buf)
  | preD (cid : Nat) (buf : Buf) (out : Option Buf)
  | postD (cid : Nat) (buf : Buf) (decoded : Buf)
deriving DecidableEq, Repr

/-- A `CodecObserver` that appends one `TraceEvent` per hook call and
never raises; used to observe which arguments instrumented dispatch
hands to each stage's hooks. -/
def traceHooks : Hooks (List TraceEvent) where
  pre_encode := fun c b tr => .ok (tr ++ [.preE c.cid b])
  post_encode := fun c b e tr => .ok (tr ++ [.postE c.cid b e])
  pre_decode := fun c b o tr => .ok (tr ++ [.preD c.cid b o])
  post_decode := fun c b d tr => .ok (tr ++ [.postD c.cid b d])

/-- The `out` arguments of the `pre_decode` events of a trace, in order. -/
def preDOuts : List TraceEvent → List (Option Buf)
  | [] => []
  | .preD _ _ o :: rest => o :: preDOuts rest
  | .preE _ _ :: rest => preDOuts rest
  | .postE _ _ _ :: rest => preDOuts rest
  | .postD _ _ _ :: rest => preDOuts rest

/-- One byte-size measurement (`observers/bytesize.py`): the buffer's
byte size immediately before and after one encode or decode call. -/
structure Bytesize where
  pre : Nat
  post : Nat
deriving DecidableEq, Repr

/-- The state of a `ByesizeObserver` (`observers/bytesize.py`): the
codec instances seen so far keyed by instance identity, and per-instance
lists of encode and decode measurements. -/
structure BytesizeState where
  codecs : List (Nat × Codec)
  encode_sizes : List (Nat × List Bytesize)
  decode_sizes : List (Nat × List Bytesize)

/-- `ByesizeObserver.__init__`: empty maps. -/
def BytesizeState.init : BytesizeState := ⟨[], [], []⟩

/-- Models `ByesizeObserver.post_encode` (`observers/bytesize.py`, lines
27-33): appends `(buf.nbytes, encoded.nbytes)` to the codec's encode
measurement list and records the codec under its instance identity.
Never raises; always appends. -/
def ByesizeObserver.post_encode (codec : Codec) (buf encoded : Buf) (st : BytesizeState) :
    Except Err BytesizeState :=
  .ok { st with
    encode_sizes := appendEntry st.encode_sizes codec.cid ⟨buf.nbytes, encoded.nbytes⟩
    codecs := dictInsert st.codecs codec.cid codec }

/-- Models `ByesizeObserver.post_decode` (`observers/bytesize.py`, lines
35-41). -/
def ByesizeObserver.post_decode (codec : Codec) (buf decoded : Buf) (st : BytesizeState) :
    Except Err BytesizeState :=
  .ok { st with
    decode_sizes := appendEntry st.decode_sizes codec.cid ⟨buf.nbytes, decoded.nbytes⟩
    codecs := dictInsert st.codecs codec.cid codec }

/-- The `ByesizeObserver` as a hook bundle: the pre hooks are the no-op
defaults inherited from `CodecObserver`. -/
def bytesizeHooks : Hooks BytesizeState where
  pre_encode := fun _ _ st => .ok st
  post_encode := ByesizeObserver.post_encode
  pre_decode := fun _ _ _ st => .ok st
  post_decode := ByesizeObserver.post_decode

/-- The dict comprehension shared by both observers' `results()` methods,
`{repr(self.codecs[c]): ts for c, ts in entries.items()}`: iterates the
accumulated per-instance entries in insertion order and keys each value
by the recorded codec's `repr`, a later equal key overwriting an earlier
one; a missing codec record raises `KeyError`. -/
def resultsDict {α : Type} (codecs : List (Nat × Codec)) :
    List (Nat × α) → List (String × α) → Except Err (List (String × α))
  | [], acc => .ok acc
  | (k, ts) :: rest, acc =>
    match alookup codecs k with
    | none => .error .keyError
    | some c => resultsDict codecs rest (dictInsert acc c.rep ts)

/-- Models `ByesizeObserver.results` (`observers/bytesize.py`, lines
43-51): the encode and decode measurement maps re-keyed by codec repr. -/
def ByesizeObserver.results (st : BytesizeState) :
    Except Err (List (String × List Bytesize) × List (String × List Bytesize)) :=
  match resultsDict st.codecs st.encode_sizes [] with
  | .error e => .error e
  | .ok encs =>
    match resultsDict st.codecs st.decode_sizes [] with
    | .error e => .error e
    | .ok decs => .ok (encs, decs)

/-- The state of a `WalltimeObserver` (`observers/walltime.py`): the
single in-flight slot per direction (codec instance identity and start
reading), the codec instances seen so far, per-instance lists of elapsed
times, and the monotone counter modelling `time.perf_counter()`. -/
structure WalltimeState where
  last_encode : Option (Nat × Nat)
  last_decode : Option (Nat × Nat)
  codecs : List (Nat × Codec)
  encode_times : List (Nat × List Nat)
  decode_times : List (Nat × List Nat)
  clock : Nat

/-- `WalltimeObserver.__init__`: no measurement in flight, empty maps. -/
def WalltimeState.init : WalltimeState := ⟨none, none, [], [], [], 0⟩

/-- Models `WalltimeObserver.pre_encode` (`observers/walltime.py`, lines
27-31): asserts that no encode and no decode measurement is in flight,
then records the in-flight encode with the current clock reading. -/
def WalltimeObserver.pre_encode (codec : Codec) (_buf : Buf) (st : WalltimeState) :
    Except Err WalltimeState :=
  if st.last_encode.isSome then .error .observerContractViolation
  else if st.last_decode.isSome then .error .observerContractViolation
  else .ok { st with last_encode := some (codec.cid, st.clock), clock := st.clock + 1 }

/-- Models `WalltimeObserver.post_encode` (`observers/walltime.py`, lines
33-42): asserts an encode for this codec is in flight and no decode is,
appends the elapsed time, records the codec, and clears the slot. -/
def WalltimeObserver.post_encode (codec : Codec) (_buf _encoded : Buf) (st : WalltimeState) :
    Except Err WalltimeState :=
  match st.last_encode with
  | none => .error .observerContractViolation
  | some (lastCid, lastStart) =>
    if lastCid ≠ codec.cid then .error .observerContractViolation
    else if st.last_decode.isSome then .error .observerContractViolation
    else .ok { st with
      encode_times := appendEntry st.encode_times codec.cid (st.clock - lastStart)
      codecs := dictInsert st.codecs codec.cid codec
      last_encode := none
      clock := st.clock + 1 }

/-- Models `WalltimeObserver.pre_decode` (`observers/walltime.py`, lines
44-50): asserts that no encode and no decode measurement is in flight,
then records the in-flight decode with the current clock reading. -/
def WalltimeObserver.pre_decode (codec : Codec) (_buf : Buf) (_out : Option Buf)
    (st : WalltimeState) : Except Err WalltimeState :=
  if st.last_encode.isSome then .error .observerContractViolation
  else if st.last_decode.isSome then .error .observerContractViolation
  else .ok { st with last_decode := some (codec.cid, st.clock), clock := st.clock + 1 }

/-- Models `WalltimeObserver.post_decode` (`observers/walltime.py`, lines
52-61): asserts no encode is in flight and a decode for this codec is,
appends the elapsed time, records the codec, and clears the slot. -/
def WalltimeObserver.post_decode (codec : Codec) (_buf _decoded : Buf) (st : WalltimeState) :
    Except Err WalltimeState :=
  if st.last_encode.isSome then .error .observerContractViolation
  else
    match st.last_decode with
    | none => .error .observerContractViolation
    | some (lastCid, lastStart) =>
      if lastCid ≠ codec.cid then .error .observerContractViolation
      else .ok { st with
        decode_times := appendEntry st.decode_times codec.cid (st.clock - lastStart)
        codecs := dictInsert st.codecs codec.cid codec
        last_decode := none
        clock := st.clock + 1 }

/-- The `WalltimeObserver` as a hook bundle. -/
def walltimeHooks : Hooks WalltimeState where
  pre_encode := WalltimeObserver.pre_encode
  post_encode := WalltimeObserver.post_encode
  pre_decode := WalltimeObserver.pre_decode
  post_decode := WalltimeObserver.post_decode

/-- Models `WalltimeObserver.results` (`observers/walltime.py`, lines
63-71): the encode and decode time maps re-keyed by codec repr. -/
def WalltimeObserver.results (st : WalltimeState) :
    Except Err (List (String × List Nat) × List (String × List Nat)) :=
  match resultsDict st.codecs st.encode_times [] with
  | .error e => .error e
  | .ok encs =>
    match resultsDict st.codecs st.decode_times [] with
    | .error e => .error e
    | .ok decs => .ok (encs, decs)

/-- Reference fold, written from the spec's words for `encode`: apply
every codec in forward (left-to-right) order, canonicalizing the buffer
before handing it to each stage; the last stage's output is returned
without forced normalization. -/
def encodeSpecFold : List Codec → Buf → Except Err Buf
  | [], buf => .ok buf
  | c :: rest, buf =>
    match c.enc (ensure_contiguous_ndarray_like buf) with
    | .error e => .error e
    | .ok enc => encodeSpecFold rest enc

/-- Helper for `decodeSpecFold`: apply the given (already reversed) codec
sequence, canonicalizing before each stage, every stage with `out=None`. -/
def decodeSpecGo : List Codec → Buf → Except Err Buf
  | [], buf => .ok buf
  | c :: rest, buf =>
    match c.dec (ensure_contiguous_ndarray_like buf) none with
    | .error e => .error e
    | .ok d => decodeSpecGo rest d

/-- Reference fold, written from the spec's words for `decode`: apply
every codec in reverse order, mirroring encode, canonicalizing before
each stage, then copy the result into `out` when one was supplied. -/
def decodeSpecFold (s : List Codec) (buf : Buf) (out : Option Buf) : Except Err Buf :=
  match decodeSpecGo s.reverse buf with
  | .error e => .error e
  | .ok d => ndarray_copy d out

/-- Behavioral equivalence of two codec instances: same configuration
(which carries the codec's stable string id) and the same encode and
decode behavior. -/
def CodecEquiv (a b : Codec) : Prop :=
  a.cfg = b.cfg ∧ a.enc = b.enc ∧ a.dec = b.dec

/-- Reference recursion mirroring the encode loop of `encode_decode` on
an already-canonical buffer: returns the final (canonicalized) encoded
buffer, the silhouettes pushed in order, and per stage (in call order)
the codec together with the byte sizes of the buffers immediately before
and after its encode call. -/
def edEncodePhase : List Codec → Buf → Except Err (Buf × List Sil × List (Codec × Nat × Nat))
  | [], buf => .ok (buf, [], [])
  | c :: rest, buf =>
    match c.enc buf with
    | .error e => .error e
    | .ok enc =>
      match edEncodePhase rest (ensure_contiguous_ndarray_like enc) with
      | .error e => .error e
      | .ok (b1, sils, meas) =>
        .ok (b1, (buf.shape, buf.dtype) :: sils, (c, buf.nbytes, enc.nbytes) :: meas)

/-- Reference recursion mirroring the decode loop of `encode_decode` on
the already-reversed codec sequence: returns the final decoded buffer and
per stage (in call order) the codec together with the byte sizes of the
buffers immediately before and after its decode call. -/
def edDecodePhase : List Codec → Buf → List Sil → Except Err (Buf × List (Codec × Nat × Nat))
  | [], buf, _ => .ok (buf, [])
  | c :: rest, buf, sils =>
    match popLast sils with
    | none => .error .indexError
    | some (sils1, sil) =>
      match c.dec buf (some (npEmpty sil.1 sil.2)) with
      | .error e => .error e
      | .ok dec =>
        match edDecodePhase rest (dec.reshape sil.1) sils1 with
        | .error e => .error e
        | .ok (b1, meas) => .ok (b1, (c, buf.nbytes, dec.nbytes) :: meas)

/-- The state change `ByesizeObserver.post_encode` performs for one
measurement `(codec, pre, post)`. -/
def recordEnc (st : BytesizeState) (m : Codec × Nat × Nat) : BytesizeState :=
  { st with
    encode_sizes := appendEntry st.encode_sizes m.1.cid ⟨m.2.1, m.2.2⟩
    codecs := dictInsert st.codecs m.1.cid m.1 }

/-- The state change `ByesizeObserver.post_decode` performs for one
measurement `(codec, pre, post)`. -/
def recordDec (st : BytesizeState) (m : Codec × Nat × Nat) : BytesizeState :=
  { st with
    decode_sizes := appendEntry st.decode_sizes m.1.cid ⟨m.2.1, m.2.2⟩
    codecs := dictInsert st.codecs m.1.cid m.1 }

/-- A one-byte unsigned dtype used by the concrete test inputs. -/
def u1 : Dtype := ⟨"u1", 1⟩

/-- A concrete non-contiguous input buffer for the empty-stack claim. -/
def b4 : Buf := ⟨[1], u1, [7], false⟩

/-- A concrete codec whose decode ignores `out` and returns its input;
its instance identity is 30. -/
def cD3 : Codec :=
  ⟨30, "D3()", .leaf "d3" 0, fun b => .ok b, fun b _ => .ok b⟩

/-- A concrete input buffer for the decode `out` claim. -/
def b3 : Buf := ⟨[1], u1, [9], false⟩

/-- A concrete caller-supplied output buffer for the decode `out` claim. -/
def o3 : Buf := ⟨[1], u1, [0], true⟩

/-- A concrete codec that flattens on encode and decodes by copying into
the supplied output buffer (`ndarray_copy`), honoring its dtype. -/
def cFlat : Codec :=
  ⟨1, "Flat()", .leaf "flat" 0,
   fun b => .ok ⟨[b.nbytes], b.dtype, b.bytes, true⟩,
   fun b out => ndarray_copy b out⟩

/-- A concrete two-dimensional input buffer for the round-trip claim. -/
def b2w : Buf := ⟨[2, 2], u1, [1, 2, 3, 4], false⟩

/-- A concrete identity-like codec with instance identity 10 and config
`leaf "a" 1`, used for the config round-trip claim. -/
def cA : Codec :=
  ⟨10, "A()", .leaf "a" 1, fun b => .ok b, fun b _ => .ok b⟩

/-- A concrete registry resolving the config `leaf "a" 1` to `cA`. -/
def regA : Config → Except Err Codec
  | .leaf "a" 1 => .ok cA
  | _ => .error .unknownCodec

/-- A concrete identity codec with instance identity 1. -/
def cSz1 : Codec :=
  ⟨1, "Sz1()", .leaf "sz1" 0, fun b => .ok b, fun b out => ndarray_copy b out⟩

/-- A concrete flattening codec with instance identity 2. -/
def cSz2 : Codec :=
  ⟨2, "Sz2()", .leaf "sz2" 0,
   fun b => .ok ⟨[b.nbytes], b.dtype, b.bytes, true⟩,
   fun b out => ndarray_copy b out⟩

/-- A concrete input buffer for the observer-completeness claim. -/
def b6 : Buf := ⟨[2], u1, [5, 6], false⟩

/-- A wall-time observer state with an encode measurement in flight. -/
def stE7 : WalltimeState := { WalltimeState.init with last_encode := some (3, 0) }

/-- A wall-time observer state with a decode measurement in flight. -/
def stD7 : WalltimeState := { WalltimeState.init with last_decode := some (4, 0) }

/-- A wall-time observer state with an encode measurement in flight,
used to refute the cross-direction-nesting claim. -/
def stE8 : WalltimeState := { WalltimeState.init with last_encode := some (7, 0) }

/-- A wall-time observer state with a decode measurement in flight, for
the amended cross-direction claim's witness. -/
def stD8 : WalltimeState := { WalltimeState.init with last_decode := some (8, 0) }

/-- A concrete codec whose encode and decode always raise, with instance
identity 20. -/
def cFail : Codec :=
  ⟨20, "F()", .leaf "f" 0,
   fun _ => .error (.codecFailure "boom"),
   fun _ _ => .error (.codecFailure "boom")⟩

/-- A concrete input buffer for the failing-stage claim. -/
def b10 : Buf := ⟨[1], u1, [0], true⟩

/-- A concrete identity codec with instance identity 41 whose repr
collides with `cR2`. -/
def cR1 : Codec := ⟨41, "R()", .leaf "r" 0, fun b => .ok b, fun b _ => .ok b⟩

/-- A concrete identity codec with instance identity 42 whose repr
collides with `cR1`. -/
def cR2 : Codec := ⟨42, "R()", .leaf "r" 0, fun b => .ok b, fun b _ => .ok b⟩

/-- A byte-size observer state holding one measurement for each of two
distinct codec instances with equal repr. -/
def st9 : BytesizeState :=
  ⟨[(41, cR1), (42, cR2)], [(41, [⟨1, 1⟩]), (42, [⟨2, 2⟩])], []⟩

/-- A wall-time observer state holding one measurement for each of two
distinct codec instances with equal repr. -/
def st9w : WalltimeState :=
  ⟨none, none, [(41, cR1), (42, cR2)], [(41, [5]), (42, [6])], [], 0⟩

deriving instance DecidableEq for Except

theorem encode_with_observers_nil {σ : Type} (c : Codec) (b : Buf) (st : σ) :
    encode_with_observers ([] : List (Hooks σ)) c b st = (c.enc b, st) := by
  cases h : c.enc b <;> simp [encode_with_observers, runHooks, h]

theorem decode_with_observers_nil {σ : Type} (c : Codec) (b : Buf) (out : Option Buf)
    (st : σ) : decode_with_observers ([] : List (Hooks σ)) c b out st = (c.dec b out, st) := by
  cases h : c.dec b out <;> simp [decode_with_observers, runHooks, h]

theorem encodeGo_nil {σ : Type} (l : List Codec) (buf : Buf) (st : σ) :
    CodecStack.encodeGo ([] : List (Hooks σ)) l buf st = (encodeSpecFold l buf, st) := by
  induction l generalizing buf with
  | nil => rfl
  | cons c rest ih =>
    simp only [CodecStack.encodeGo, encodeSpecFold, encode_with_observers_nil]
    cases h : c.enc (ensure_contiguous_ndarray_like buf) <;> simp [h, ih]

theorem decodeGo_nil {σ : Type} (l : List Codec) (buf : Buf) (st : σ) :
    CodecStack.decodeGo ([] : List (Hooks σ)) l buf st = (decodeSpecGo l buf, st) := by
  induction l generalizing buf with
  | nil => rfl
  | cons c rest ih =>
    simp only [CodecStack.decodeGo, decodeSpecGo, decode_with_observers_nil]
    cases h : c.dec (ensure_contiguous_ndarray_like buf) none <;> simp [h, ih]

/-- C1: `CodecStack.encode` applies every codec in forward order,
canonicalizing the buffer before handing it to each stage and returning
the last stage's output without forced normalization, and
`CodecStack.decode` applies every codec in reverse order, mirroring
encode and likewise canonicalizing before each stage: both equal the
reference folds written from the spec's words. -/
theorem C1_stack_order {σ : Type} (s : List Codec) (buf : Buf) (out : Option Buf) (st : σ) :
    CodecStack.encode ([] : List (Hooks σ)) s buf st = (encodeSpecFold s buf, st) ∧
    CodecStack.decode ([] : List (Hooks σ)) s buf out st = (decodeSpecFold s buf out, st) := by
  refine ⟨encodeGo_nil s buf st, ?_⟩
  unfold CodecStack.decode decodeSpecFold
  rw [decodeGo_nil]
  cases decodeSpecGo s.reverse buf <;> simp

/-- C4 counterexample: on a non-contiguous input buffer, the empty
stack's `encode` (and `decode` with `out=None`) returns the input buffer
verbatim, which differs from its canonicalized form, refuting the claim
that each of encode and decode returns the canonicalized input. -/
theorem C4_counterexample :
    CodecStack.encode ([] : List (Hooks Unit)) [] b4 () = (.ok b4, ()) ∧
    b4 ≠ ensure_contiguous_ndarray_like b4 ∧
    CodecStack.encode ([] : List (Hooks Unit)) [] b4 () ≠
      (.ok (ensure_contiguous_ndarray_like b4), ()) ∧
    CodecStack.decode ([] : List (Hooks Unit)) [] b4 none () ≠
      (.ok (ensure_contiguous_ndarray_like b4), ()) := by
  refine ⟨rfl, by decide, by decide, by decide⟩

/-- C4 (amended): a stack with zero stages returns its input buffer
verbatim (without canonicalization) from `encode` and from `decode` with
`out=None`, while `encode_decode` returns the canonicalized input. -/
theorem C4_empty_stack {σ : Type} (st : σ) (buf : Buf) :
    CodecStack.encode ([] : List (Hooks σ)) [] buf st = (.ok buf, st) ∧
    CodecStack.decode ([] : List (Hooks σ)) [] buf none st = (.ok buf, st) ∧
    CodecStack.encode_decode ([] : List (Hooks σ)) [] buf st =
      (.ok (ensure_contiguous_ndarray_like buf), st) :=
  ⟨rfl, rfl, rfl⟩

/-- C7: the wall-time observer fails loudly with an
`ObserverContractViolation` on a second pre-hook of the same direction
before the matching post-hook (in particular right after a successful
pre-hook of the same direction), and on a post-hook with no matching
pre-hook. -/
theorem C7_walltime_contract :
    (∀ (st : WalltimeState) (c : Codec) (b : Buf), st.last_encode.isSome = true →
        WalltimeObserver.pre_encode c b st = .error .observerContractViolation) ∧
    (∀ (st : WalltimeState) (c : Codec) (b : Buf) (o : Option Buf),
        st.last_decode.isSome = true →
        WalltimeObserver.pre_decode c b o st = .error .observerContractViolation) ∧
    (∀ (st : WalltimeState) (c : Codec) (b e : Buf), st.last_encode = none →
        WalltimeObserver.post_encode c b e st = .error .observerContractViolation) ∧
    (∀ (st : WalltimeState) (c : Codec) (b d : Buf), st.last_decode = none →
        WalltimeObserver.post_decode c b d st = .error .observerContractViolation) ∧
    (∀ (st st1 : WalltimeState) (c c1 : Codec) (b b1 : Buf),
        WalltimeObserver.pre_encode c b st = .ok st1 →
        WalltimeObserver.pre_encode c1 b1 st1 = .error .observerContractViolation) ∧
    (∀ (st st1 : WalltimeState) (c c1 : Codec) (b b1 : Buf) (o o1 : Option Buf),
        WalltimeObserver.pre_decode c b o st = .ok st1 →
        WalltimeObserver.pre_decode c1 b1 o1 st1 = .error .observerContractViolation) := by
  refine ⟨?_, ?_, ?_, ?_, ?_, ?_⟩
  · intro st c b h
    simp [WalltimeObserver.pre_encode, h]
  · intro st c b o h
    unfold WalltimeObserver.pre_decode
    rcases h1 : st.last_encode.isSome with _ | _ <;> simp [h1, h]
  · intro st c b e h
    simp [WalltimeObserver.post_encode, h]
  · intro st c b d h
    unfold WalltimeObserver.post_decode
    rcases h1 : st.last_encode.isSome with _ | _ <;> simp [h1, h]
  · intro st st1 c c1 b b1 h
    unfold WalltimeObserver.pre_encode at h
    split at h
    · exact absurd h (by simp)
    split at h
    · exact absurd h (by simp)
    have hst1 : st1.last_encode.isSome = true := by
      cases h
      rfl
    simp [WalltimeObserver.pre_encode, hst1]
  · intro st st1 c c1 b b1 o o1 h
    unfold WalltimeObserver.pre_decode at h
    split at h
    · exact absurd h (by simp)
    split at h
    · exact absurd h (by simp)
    have hst1 : st1.last_decode.isSome = true := by
      cases h
      rfl
    unfold WalltimeObserver.pre_decode
    rcases h1 : st1.last_encode.isSome with _ | _ <;> simp [h1, hst1]

/-- C7 witness: concrete instances of every contract-violation case. -/
theorem C7_witness :
    (stE7.last_encode.isSome = true ∧
      WalltimeObserver.pre_encode cA b10 stE7 = .error .observerContractViolation) ∧
    (stD7.last_decode.isSome = true ∧
      WalltimeObserver.pre_decode cA b10 none stD7 = .error .observerContractViolation) ∧
    (WalltimeState.init.last_encode = none ∧
      WalltimeObserver.post_encode cA b10 b10 WalltimeState.init =
        .error .observerContractViolation) ∧
    (WalltimeState.init.last_decode = none ∧
      WalltimeObserver.post_decode cA b10 b10 WalltimeState.init =
        .error .observerContractViolation) ∧
    (WalltimeObserver.pre_encode cA b10 WalltimeState.init =
        .ok { WalltimeState.init with last_encode := some (cA.cid, 0), clock := 1 } ∧
      WalltimeObserver.pre_encode cA b10
          { WalltimeState.init with last_encode := some (cA.cid, 0), clock := 1 } =
        .error .observerContractViolation) ∧
    (WalltimeObserver.pre_decode cA b10 none WalltimeState.init =
        .ok { WalltimeState.init with last_decode := some (cA.cid, 0), clock := 1 } ∧
      WalltimeObserver.pre_decode cA b10 none
          { WalltimeState.init with last_decode := some (cA.cid, 0), clock := 1 } =
        .error .observerContractViolation) :=
  ⟨⟨rfl, C7_walltime_contract.1 stE7 cA b10 rfl⟩,
   ⟨rfl, C7_walltime_contract.2.1 stD7 cA b10 none rfl⟩,
   ⟨rfl, C7_walltime_contract.2.2.1 WalltimeState.init cA b10 b10 rfl⟩,
   ⟨rfl, C7_walltime_contract.2.2.2.1 WalltimeState.init cA b10 b10 rfl⟩,
   ⟨rfl, C7_walltime_contract.2.2.2.2.1 WalltimeState.init _ cA cA b10 b10 rfl⟩,
   ⟨rfl, C7_walltime_contract.2.2.2.2.2 WalltimeState.init _ cA cA b10 b10 none none rfl⟩⟩

/-- C8 counterexample: with an encode measurement in flight (and no
decode in flight), a `pre_decode` hook raises an
`ObserverContractViolation`, refuting the claim that only same-kind
nesting is restricted. -/
theorem C8_counterexample :
    stE8.last_encode.isSome = true ∧ stE8.last_decode = none ∧
    WalltimeObserver.pre_decode cD3 b3 none stE8 = .error .observerContractViolation :=
  ⟨rfl, rfl, rfl⟩

/-- C8 (amended): the wall-time observer's runtime invariant restricts
cross-kind nesting as well: a `pre_decode` while an encode measurement
is in flight, and a `pre_encode` while a decode measurement is in
flight, both fail with an `ObserverContractViolation`. -/
theorem C8_cross_nesting :
    (∀ (st : WalltimeState) (c : Codec) (b : Buf) (o : Option Buf),
        st.last_encode.isSome = true →
        WalltimeObserver.pre_decode c b o st = .error .observerContractViolation) ∧
    (∀ (st : WalltimeState) (c : Codec) (b : Buf), st.last_decode.isSome = true →
        WalltimeObserver.pre_encode c b st = .error .observerContractViolation) := by
  constructor
  · intro st c b o h
    simp [WalltimeObserver.pre_decode, h]
  · intro st c b h
    unfold WalltimeObserver.pre_encode
    rcases h1 : st.last_encode.isSome with _ | _ <;> simp [h1, h]

theorem preDOuts_append (a b : List TraceEvent) :
    preDOuts (a ++ b) = preDOuts a ++ preDOuts b := by
  induction a with
  | nil => rfl
  | cons e rest ih => cases e <;> simp [preDOuts, ih]

theorem decode_with_observers_trace (c : Codec) (b : Buf) (out : Option Buf)
    (tr : List TraceEvent) :
    decode_with_observers [traceHooks] c b out tr =
      match c.dec b out with
      | .error e => (.error e, tr ++ [.preD c.cid b out])
      | .ok d => (.ok d, tr ++ [.preD c.cid b out, .postD c.cid b d]) := by
  cases h : c.dec b out <;>
    simp [decode_with_observers, runHooks, traceHooks, h]

theorem decodeGo_trace (l : List Codec) (buf : Buf) (tr : List TraceEvent) :
    ∃ k, preDOuts (CodecStack.decodeGo [traceHooks] l buf tr).2 =
      preDOuts tr ++ List.replicate k none := by
  induction l generalizing buf tr with
  | nil => exact ⟨0, by simp [CodecStack.decodeGo]⟩
  | cons c rest ih =>
    simp only [CodecStack.decodeGo, decode_with_observers_trace]
    cases h : c.dec (ensure_contiguous_ndarray_like buf) none with
    | error e =>
      refine ⟨1, ?_⟩
      simp [preDOuts_append, preDOuts]
    | ok d =>
      obtain ⟨k, hk⟩ := ih d (tr ++ [.preD c.cid (ensure_contiguous_ndarray_like buf) none,
        .postD c.cid (ensure_contiguous_ndarray_like buf) d])
      refine ⟨k + 1, ?_⟩
      rw [hk, preDOuts_append]
      simp [preDOuts, List.replicate_succ]

theorem decode_snd {σ : Type} (obs : List (Hooks σ)) (s : List Codec) (buf : Buf)
    (out : Option Buf) (st : σ) :
    (CodecStack.decode obs s buf out st).2 = (CodecStack.decodeGo obs s.reverse buf st).2 := by
  unfold CodecStack.decode
  rcases CodecStack.decodeGo obs s.reverse buf st with ⟨r, st1⟩
  cases r <;> rfl

/-- C3 counterexample: decoding a one-stage stack with a caller-supplied
`out` buffer, the (final and only) stage's `pre_decode` hook receives
`out=None`, not the caller-supplied buffer, refuting the claim that the
final stage is called with the caller-supplied `out`. -/
theorem C3_counterexample :
    preDOuts (CodecStack.decode [traceHooks] [cD3] b3 (some o3)
      ([] : List TraceEvent)).2 = [none] ∧
    ([none] : List (Option Buf)) ≠ [some o3] :=
  ⟨rfl, by decide⟩

/-- C3 (amended): every stage of `CodecStack.decode` — including the
final (first-in-original-order) stage — is called with `out=None`
(observable through the `out` argument handed to every `pre_decode`
hook), and the caller-supplied `out` only affects the final
`ndarray_copy` of the result after the last stage. -/
theorem C3_decode_out_handling :
    (∀ (σ : Type) (obs : List (Hooks σ)) (s : List Codec) (buf : Buf) (out : Option Buf)
        (st : σ),
      CodecStack.decode obs s buf out st =
        match CodecStack.decode obs s buf none st with
        | (.error e, st1) => (.error e, st1)
        | (.ok d, st1) => (ndarray_copy d out, st1)) ∧
    (∀ (s : List Codec) (buf : Buf) (out : Option Buf),
      ∀ o ∈ preDOuts (CodecStack.decode [traceHooks] s buf out
        ([] : List TraceEvent)).2, o = none) := by
  constructor
  · intro σ obs s buf out st
    rcases h : CodecStack.decodeGo obs s.reverse buf st with ⟨r, st1⟩
    cases r <;> simp [CodecStack.decode, h, ndarray_copy]
  · intro s buf out o ho
    rw [decode_snd] at ho
    obtain ⟨k, hk⟩ := decodeGo_trace s.reverse buf []
    rw [hk] at ho
    simp only [preDOuts, List.nil_append] at ho
    exact List.eq_of_mem_replicate ho

/-- C3 witness: a concrete decode run in which a recorded `pre_decode`
`out` argument is shown to be `None`. -/
theorem C3_witness :
    (none ∈ preDOuts (CodecStack.decode [traceHooks] [cD3] b3 (some o3)
      ([] : List TraceEvent)).2) ∧
    (none : Option Buf) = none :=
  ⟨by decide, C3_decode_out_handling.2 [cD3] b3 (some o3) none (by decide)⟩

/-- C10: when a stage's encode (or decode) raises during instrumented
dispatch, the raise propagates, the wall-time observer's post-hook never
runs (no time is appended), the measurement is left in flight, and every
subsequent pre-hook of either direction on that observer fails its
contract assertion. -/
theorem C10_stage_exception (c : Codec) (b : Buf) (e : Err) (st : WalltimeState)
    (h1 : st.last_encode = none) (h2 : st.last_decode = none) :
    (c.enc b = .error e →
      ∃ st1, encode_with_observers [walltimeHooks] c b st = (.error e, st1) ∧
        st1.last_encode = some (c.cid, st.clock) ∧
        st1.encode_times = st.encode_times ∧
        (∀ (c2 : Codec) (b2 : Buf),
          WalltimeObserver.pre_encode c2 b2 st1 = .error .observerContractViolation) ∧
        (∀ (c2 : Codec) (b2 : Buf) (o2 : Option Buf),
          WalltimeObserver.pre_decode c2 b2 o2 st1 = .error .observerContractViolation)) ∧
    (∀ (o : Option Buf), c.dec b o = .error e →
      ∃ st1, decode_with_observers [walltimeHooks] c b o st = (.error e, st1) ∧
        st1.last_decode = some (c.cid, st.clock) ∧
        st1.decode_times = st.decode_times ∧
        (∀ (c2 : Codec) (b2 : Buf),
          WalltimeObserver.pre_encode c2 b2 st1 = .error .observerContractViolation) ∧
        (∀ (c2 : Codec) (b2 : Buf) (o2 : Option Buf),
          WalltimeObserver.pre_decode c2 b2 o2 st1 = .error .observerContractViolation)) := by
  have hpreE : WalltimeObserver.pre_encode c b st =
      .ok { st with last_encode := some (c.cid, st.clock), clock := st.clock + 1 } := by
    simp [WalltimeObserver.pre_encode, h1, h2]
  have hpreD : ∀ (o : Option Buf), WalltimeObserver.pre_decode c b o st =
      .ok { st with last_decode := some (c.cid, st.clock), clock := st.clock + 1 } := by
    intro o
    simp [WalltimeObserver.pre_decode, h1, h2]
  constructor
  · intro henc
    refine ⟨{ st with last_encode := some (c.cid, st.clock), clock := st.clock + 1 },
      ?_, rfl, rfl, ?_, ?_⟩
    · simp [encode_with_observers, runHooks, walltimeHooks, hpreE, henc]
    · intro c2 b2
      simp [WalltimeObserver.pre_encode]
    · intro c2 b2 o2
      simp [WalltimeObserver.pre_decode]
  · intro o hdec
    refine ⟨{ st with last_decode := some (c.cid, st.clock), clock := st.clock + 1 },
      ?_, rfl, rfl, ?_, ?_⟩
    · simp [decode_with_observers, runHooks, walltimeHooks, hpreD, hdec]
    · intro c2 b2
      simp [WalltimeObserver.pre_encode, h1, h2]
    · intro c2 b2 o2
      simp [WalltimeObserver.pre_decode, h1, h2]

/-- C10 witness: a concrete always-raising codec dispatched on a fresh
wall-time observer. -/
theorem C10_witness :
    WalltimeState.init.last_encode = none ∧ WalltimeState.init.last_decode = none ∧
    cFail.enc b10 = .error (.codecFailure "boom") ∧
    (∃ st1, encode_with_observers [walltimeHooks] cFail b10 WalltimeState.init =
        (.error (.codecFailure "boom"), st1) ∧
      st1.last_encode = some (cFail.cid, WalltimeState.init.clock) ∧
      st1.encode_times = WalltimeState.init.encode_times ∧
      (∀ (c2 : Codec) (b2 : Buf),
        WalltimeObserver.pre_encode c2 b2 st1 = .error .observerContractViolation) ∧
      (∀ (c2 : Codec) (b2 : Buf) (o2 : Option Buf),
        WalltimeObserver.pre_decode c2 b2 o2 st1 = .error .observerContractViolation)) :=
  ⟨rfl, rfl, rfl,
   (C10_stage_exception cFail b10 (.codecFailure "boom") WalltimeState.init rfl rfl).1 rfl⟩

theorem popLast_eq_append {α : Type} (l : List α) :
    ∀ (l1 : List α) (x : α), popLast l = some (l1, x) → l = l1 ++ [x] := by
  induction l with
  | nil => intro l1 x h; exact Option.noConfusion h
  | cons a rest ih =>
    intro l1 x h
    cases rest with
    | nil =>
      simp [popLast] at h
      rw [h.1, h.2]
      rfl
    | cons b t =>
      have heq : popLast (a :: b :: t) =
          (popLast (b :: t)).map (fun p => (a :: p.1, p.2)) := rfl
      rw [heq] at h
      cases hp : popLast (b :: t) with
      | none => rw [hp] at h; simp at h
      | some q =>
        rw [hp] at h
        simp only [Option.map_some', Option.some.injEq] at h
        have hq := ih q.1 q.2 (by rw [hp])
        injection h with h1 h2
        subst h1
        subst h2
        simp [hq]

theorem popLast_cons_isSome {α : Type} (a : α) (rest : List α) :
    (popLast (a :: rest)).isSome = true := by
  induction rest generalizing a with
  | nil => rfl
  | cons b t ih =>
    have heq : popLast (a :: b :: t) =
        (popLast (b :: t)).map (fun p => (a :: p.1, p.2)) := rfl
    rw [heq]
    cases hp : popLast (b :: t) with
    | none => have hb := ih b; rw [hp] at hb; simp at hb
    | some q => simp

theorem decode_with_observers_ok_inv {σ : Type} (obs : List (Hooks σ)) (c : Codec)
    (b : Buf) (out : Option Buf) (st : σ) (d : Buf) (st1 : σ)
    (h : decode_with_observers obs c b out st = (.ok d, st1)) : c.dec b out = .ok d := by
  unfold decode_with_observers at h
  split at h
  · simp at h
  · split at h
    · simp at h
    · rename_i decoded hdeceq
      split at h
      · simp at h
      · simp only [Prod.mk.injEq, Except.ok.injEq] at h
        rw [hdeceq, h.1]

theorem encGo_sils {σ : Type} (obs : List (Hooks σ)) (l : List Codec) :
    ∀ (b : Buf) (sils0 : List Sil) (st : σ) (out : Buf) (sils1 : List Sil) (st1 : σ),
    CodecStack.encodeDecodeEncGo obs l b sils0 st = (.ok (out, sils1), st1) →
    ∃ ext, sils1 = sils0 ++ ext ∧ ext.length = l.length ∧
      (l ≠ [] → ext.head? = some (b.shape, b.dtype)) := by
  induction l with
  | nil =>
    intro b sils0 st out sils1 st1 h
    simp only [CodecStack.encodeDecodeEncGo, Prod.mk.injEq, Except.ok.injEq] at h
    exact ⟨[], by simp [← h.1.2], rfl, by simp⟩
  | cons c rest ih =>
    intro b sils0 st out sils1 st1 h
    simp only [CodecStack.encodeDecodeEncGo] at h
    split at h
    · simp at h
    · rename_i enc ste heq
      obtain ⟨ext1, hext1, hlen1, _⟩ := ih (ensure_contiguous_ndarray_like enc)
        (sils0 ++ [(b.shape, b.dtype)]) ste out sils1 st1 h
      refine ⟨(b.shape, b.dtype) :: ext1, ?_, by simp [hlen1], by simp⟩
      rw [hext1]
      simp

theorem decGo_shape {σ : Type} (obs : List (Hooks σ)) (l : List Codec) :
    ∀ (b : Buf) (sils : List Sil) (st : σ) (res : Buf) (st1 : σ),
    sils.length = l.length →
    (∀ c ∈ l, ∀ (bb o r : Buf), c.dec bb (some o) = .ok r → r.dtype = o.dtype) →
    CodecStack.encodeDecodeDecGo obs l b sils st = (.ok res, st1) →
    ∀ (sh : List Nat) (dt : Dtype), sils.head? = some (sh, dt) →
      res.shape = sh ∧ res.dtype = dt := by
  induction l with
  | nil =>
    intro b sils st res st1 hlen _ _ sh dt hhead
    rw [List.length_eq_zero.mp hlen] at hhead
    simp at hhead
  | cons c rest ih =>
    intro b sils st res st1 hlen hdec hrun sh dt hhead
    simp only [CodecStack.encodeDecodeDecGo] at hrun
    split at hrun
    · rename_i hp
      cases sils with
      | nil => simp at hlen
      | cons s0 srest =>
        have hs := popLast_cons_isSome s0 srest
        rw [hp] at hs
        simp at hs
    · rename_i sils1 sil hp
      split at hrun
      · simp at hrun
      · rename_i dec std hdo
        have hsils : sils = sils1 ++ [sil] := popLast_eq_append sils sils1 sil hp
        have hcontract := hdec c (by simp)
        cases rest with
        | nil =>
          simp only [CodecStack.encodeDecodeDecGo, Prod.mk.injEq, Except.ok.injEq] at hrun
          have hsil1 : sils1 = [] := by
            have hl1 : sils.length = 1 := by rw [hlen]; rfl
            rw [hsils] at hl1
            simpa using hl1
          have hsilv : sils = [sil] := by rw [hsils, hsil1]; rfl
          rw [hsilv] at hhead
          simp only [List.head?_cons, Option.some.injEq] at hhead
          have hdtype : dec.dtype = (npEmpty sil.1 sil.2).dtype :=
            hcontract b (npEmpty sil.1 sil.2) dec
              (decode_with_observers_ok_inv obs c b _ st dec std hdo)
          rw [hhead] at hdtype
          constructor
          · rw [← hrun.1, hhead]
            simp [Buf.reshape]
          · rw [← hrun.1]
            simp only [Buf.reshape]
            rw [hdtype]
            rfl
        | cons c2 t =>
          have hp1len : sils1.length = (c2 :: t).length := by
            have hl1 : sils.length = (c2 :: t).length + 1 := by rw [hlen]; rfl
            rw [hsils] at hl1
            simp at hl1
            exact hl1
          have hp1ne : sils1 ≠ [] := by
            intro hh
            rw [hh] at hp1len
            simp at hp1len
          have hhead1 : sils1.head? = some (sh, dt) := by
            rw [hsils] at hhead
            cases hq : sils1 with
            | nil => exact absurd hq hp1ne
            | cons q0 qrest => rw [hq] at hhead; simpa using hhead
          exact ih (dec.reshape sil.1) sils1 std res st1 hp1len
            (fun cc hcc => hdec cc (by simp [hcc])) hrun sh dt hhead1

/-- C2: during `encode_decode` a silhouette of each stage's input is
pushed before its encode and popped for the matching reverse-order
decode, which receives a freshly allocated `out` of that shape and dtype
and is reshaped to the recorded shape; consequently, whenever
`encode_decode` returns (for stages whose decode honors the dtype of a
supplied `out`, as the codec contract requires), the returned buffer's
shape and dtype equal those of the canonicalized input. -/
theorem C2_shape_restoration {σ : Type} (obs : List (Hooks σ)) (s : List Codec)
    (buf : Buf) (st : σ) (res : Buf) (st1 : σ)
    (hdec : ∀ c ∈ s, ∀ (bb o r : Buf), c.dec bb (some o) = .ok r → r.dtype = o.dtype)
    (hrun : CodecStack.encode_decode obs s buf st = (.ok res, st1)) :
    res.shape = (ensure_contiguous_ndarray_like buf).shape ∧
    res.dtype = (ensure_contiguous_ndarray_like buf).dtype := by
  unfold CodecStack.encode_decode at hrun
  split at hrun
  · simp at hrun
  · rename_i enc sils st2 he
    obtain ⟨ext, hsils, hlen, hhead⟩ := encGo_sils obs s _ [] st enc sils st2 he
    have hsils1 : sils = ext := by simpa using hsils
    cases hs : s with
    | nil =>
      rw [hs] at he
      simp only [CodecStack.encodeDecodeEncGo, Prod.mk.injEq, Except.ok.injEq] at he
      rw [hs] at hrun
      simp only [List.reverse_nil, CodecStack.encodeDecodeDecGo, Prod.mk.injEq,
        Except.ok.injEq] at hrun
      rw [← hrun.1, ← he.1.1]
      exact ⟨rfl, rfl⟩
    | cons c rest =>
      have hne : s ≠ [] := by rw [hs]; simp
      have hheadv : sils.head? =
          some ((ensure_contiguous_ndarray_like buf).shape,
            (ensure_contiguous_ndarray_like buf).dtype) := by
        rw [hsils1]; exact hhead hne
      have hlen2 : sils.length = (s.reverse).length := by
        rw [hsils1, hlen]; simp
      have hdec2 : ∀ cc ∈ s.reverse, ∀ (bb o r : Buf),
          cc.dec bb (some o) = .ok r → r.dtype = o.dtype :=
        fun cc hcc => hdec cc (List.mem_reverse.mp hcc)
      exact decGo_shape obs s.reverse enc sils st2 res st1 hlen2 hdec2 hrun
        (ensure_contiguous_ndarray_like buf).shape
        (ensure_contiguous_ndarray_like buf).dtype hheadv

/-- C2 witness: a one-stage stack whose codec flattens on encode and
decodes by copying into the supplied output buffer. -/
theorem C2_witness :
    (∀ c ∈ [cFlat], ∀ (bb o r : Buf), c.dec bb (some o) = .ok r → r.dtype = o.dtype) ∧
    CodecStack.encode_decode ([] : List (Hooks Unit)) [cFlat] b2w () =
      (.ok ⟨[2, 2], u1, [1, 2, 3, 4], true⟩, ()) ∧
    (⟨[2, 2], u1, [1, 2, 3, 4], true⟩ : Buf).shape =
      (ensure_contiguous_ndarray_like b2w).shape ∧
    (⟨[2, 2], u1, [1, 2, 3, 4], true⟩ : Buf).dtype =
      (ensure_contiguous_ndarray_like b2w).dtype := by
  have hd : ∀ c ∈ [cFlat], ∀ (bb o r : Buf),
      c.dec bb (some o) = .ok r → r.dtype = o.dtype := by
    intro c hc bb o r h
    have hcf : c = cFlat := by simpa using hc
    rw [hcf] at h
    simp only [cFlat, ndarray_copy] at h
    split at h
    · cases h; rfl
    · simp at h
  have hr : CodecStack.encode_decode ([] : List (Hooks Unit)) [cFlat] b2w () =
      (.ok ⟨[2, 2], u1, [1, 2, 3, 4], true⟩, ()) := by decide
  exact ⟨hd, hr,
    (C2_shape_restoration ([] : List (Hooks Unit)) [cFlat] b2w () _ () hd hr).1,
    (C2_shape_restoration ([] : List (Hooks Unit)) [cFlat] b2w () _ () hd hr).2⟩

theorem encodeSpecFold_congr : ∀ (s1 s : List Codec), List.Forall₂ CodecEquiv s1 s →
    ∀ (buf : Buf), encodeSpecFold s1 buf = encodeSpecFold s buf := by
  intro s1 s h
  induction h with
  | nil => intro buf; rfl
  | cons hc _ ih =>
    intro buf
    simp only [encodeSpecFold]
    rw [hc.2.1]
    rename_i a b l1 l2 _
    cases b.enc (ensure_contiguous_ndarray_like buf) <;> simp [ih]

theorem decodeSpecGo_congr : ∀ (s1 s : List Codec), List.Forall₂ CodecEquiv s1 s →
    ∀ (buf : Buf), decodeSpecGo s1 buf = decodeSpecGo s buf := by
  intro s1 s h
  induction h with
  | nil => intro buf; rfl
  | cons hc _ ih =>
    intro buf
    simp only [decodeSpecGo]
    rw [hc.2.2]
    rename_i a b l1 l2 _
    cases b.dec (ensure_contiguous_ndarray_like buf) none <;> simp [ih]

theorem from_config_roundtrip_aux (registry : Config → Except Err Codec) :
    ∀ (s : List Codec),
    (∀ c ∈ s, ∃ c1, registry c.cfg = .ok c1 ∧ CodecEquiv c1 c) →
    ∃ s1, CodecStack.mk registry ((s.map (fun c => c.cfg)).map (fun c => .cfg c)) =
        .ok s1 ∧ List.Forall₂ CodecEquiv s1 s := by
  intro s
  induction s with
  | nil => intro _; exact ⟨[], rfl, List.Forall₂.nil⟩
  | cons c rest ih =>
    intro hreg
    obtain ⟨c1, hc1, he⟩ := hreg c (by simp)
    obtain ⟨s1, hs1, hf⟩ := ih (fun cc hcc => hreg cc (by simp [hcc]))
    refine ⟨c1 :: s1, ?_, List.Forall₂.cons he hf⟩
    simp only [List.map_cons, CodecStack.mk, hc1, hs1]

/-- C5: `from_config(s.get_config())` produces a stack behaviorally
equivalent to `s` — stagewise equal configurations (which carry the
codec identities) and encode/decode behavior, hence the same encode and
decode outputs on every input — given that the external registry
resolves each stage's config to a behaviorally equivalent codec. -/
theorem C5_config_roundtrip (registry : Config → Except Err Codec) (s : List Codec)
    (hreg : ∀ c ∈ s, ∃ c1, registry c.cfg = .ok c1 ∧ CodecEquiv c1 c) :
    ∃ s1, CodecStack.from_config registry (CodecStack.get_config s) = .ok s1 ∧
      List.Forall₂ CodecEquiv s1 s ∧
      (∀ (buf : Buf) (st : Unit), CodecStack.encode ([] : List (Hooks Unit)) s1 buf st =
        CodecStack.encode ([] : List (Hooks Unit)) s buf st) ∧
      (∀ (buf : Buf) (out : Option Buf) (st : Unit),
        CodecStack.decode ([] : List (Hooks Unit)) s1 buf out st =
        CodecStack.decode ([] : List (Hooks Unit)) s buf out st) := by
  obtain ⟨s1, hs1, hf⟩ := from_config_roundtrip_aux registry s hreg
  refine ⟨s1, ?_, hf, ?_, ?_⟩
  · simpa [CodecStack.from_config, CodecStack.get_config] using hs1
  · intro buf st
    rw [CodecStack.encode, CodecStack.encode, encodeGo_nil, encodeGo_nil,
      encodeSpecFold_congr s1 s hf buf]
  · intro buf out st
    unfold CodecStack.decode
    rw [decodeGo_nil, decodeGo_nil,
      decodeSpecGo_congr s1.reverse s.reverse (List.rel_reverse hf) buf]

/-- C5 witness: a concrete one-stage stack with a registry resolving its
config back to the same codec. -/
theorem C5_witness :
    (∀ c ∈ [cA], ∃ c1, regA c.cfg = .ok c1 ∧ CodecEquiv c1 c) ∧
    (∃ s1, CodecStack.from_config regA (CodecStack.get_config [cA]) = .ok s1 ∧
      List.Forall₂ CodecEquiv s1 [cA] ∧
      (∀ (buf : Buf) (st : Unit), CodecStack.encode ([] : List (Hooks Unit)) s1 buf st =
        CodecStack.encode ([] : List (Hooks Unit)) [cA] buf st) ∧
      (∀ (buf : Buf) (out : Option Buf) (st : Unit),
        CodecStack.decode ([] : List (Hooks Unit)) s1 buf out st =
        CodecStack.decode ([] : List (Hooks Unit)) [cA] buf out st)) := by
  have hr : ∀ c ∈ [cA], ∃ c1, regA c.cfg = .ok c1 ∧ CodecEquiv c1 c := by
    intro c hc
    have hca : c = cA := by simpa using hc
    subst hca
    exact ⟨cA, rfl, rfl, rfl, rfl⟩
  exact ⟨hr, C5_config_roundtrip regA [cA] hr⟩

theorem encode_with_observers_bytesize (c : Codec) (b enc : Buf) (st : BytesizeState)
    (henc : c.enc b = .ok enc) :
    encode_with_observers [bytesizeHooks] c b st =
      (.ok enc, recordEnc st (c, b.nbytes, enc.nbytes)) := by
  simp [encode_with_observers, runHooks, bytesizeHooks, henc,
    ByesizeObserver.post_encode, recordEnc]

theorem decode_with_observers_bytesize (c : Codec) (b dec : Buf) (out : Option Buf)
    (st : BytesizeState) (hdec : c.dec b out = .ok dec) :
    decode_with_observers [bytesizeHooks] c b out st =
      (.ok dec, recordDec st (c, b.nbytes, dec.nbytes)) := by
  simp [decode_with_observers, runHooks, bytesizeHooks, hdec,
    ByesizeObserver.post_decode, recordDec]

theorem encGo_bytesize (l : List Codec) :
    ∀ (b : Buf) (sils0 : List Sil) (st : BytesizeState) (b1 : Buf) (sils : List Sil)
      (meas : List (Codec × Nat × Nat)),
    edEncodePhase l b = .ok (b1, sils, meas) →
    CodecStack.encodeDecodeEncGo [bytesizeHooks] l b sils0 st =
      (.ok (b1, sils0 ++ sils), meas.foldl recordEnc st) := by
  induction l with
  | nil =>
    intro b sils0 st b1 sils meas h
    simp only [edEncodePhase, Except.ok.injEq, Prod.mk.injEq] at h
    obtain ⟨hb, hs, hm⟩ := h
    subst hb; subst hs; subst hm
    simp [CodecStack.encodeDecodeEncGo]
  | cons c rest ih =>
    intro b sils0 st b1 sils meas h
    simp only [edEncodePhase] at h
    split at h
    · simp at h
    · rename_i enc henc
      split at h
      · simp at h
      · rename_i b2 sils2 meas2 hrec
        simp only [Except.ok.injEq, Prod.mk.injEq] at h
        obtain ⟨hb, hs, hm⟩ := h
        subst hb; subst hs; subst hm
        simp only [CodecStack.encodeDecodeEncGo,
          encode_with_observers_bytesize c b enc st henc]
        rw [ih (ensure_contiguous_ndarray_like enc) (sils0 ++ [(b.shape, b.dtype)])
          (recordEnc st (c, b.nbytes, enc.nbytes)) b2 sils2 meas2 hrec]
        simp

theorem decGo_bytesize (l : List Codec) :
    ∀ (b : Buf) (sils : List Sil) (st : BytesizeState) (b1 : Buf)
      (meas : List (Codec × Nat × Nat)),
    edDecodePhase l b sils = .ok (b1, meas) →
    CodecStack.encodeDecodeDecGo [bytesizeHooks] l b sils st =
      (.ok b1, meas.foldl recordDec st) := by
  induction l with
  | nil =>
    intro b sils st b1 meas h
    simp only [edDecodePhase, Except.ok.injEq, Prod.mk.injEq] at h
    obtain ⟨hb, hm⟩ := h
    subst hb; subst hm
    simp [CodecStack.encodeDecodeDecGo]
  | cons c rest ih =>
    intro b sils st b1 meas h
    simp only [edDecodePhase] at h
    split at h
    · simp at h
    · rename_i sils1 sil hp
      split at h
      · simp at h
      · rename_i dec hdecod
        split at h
        · simp at h
        · rename_i b2 meas2 hrec
          simp only [Except.ok.injEq, Prod.mk.injEq] at h
          obtain ⟨hb, hm⟩ := h
          subst hb; subst hm
          simp only [CodecStack.encodeDecodeDecGo, hp,
            decode_with_observers_bytesize c b dec (some (npEmpty sil.1 sil.2)) st hdecod]
          rw [ih (dec.reshape sil.1) sils1
            (recordDec st (c, b.nbytes, dec.nbytes)) b2 meas2 hrec]
          simp

theorem appendEntry_not_mem {κ α : Type} [DecidableEq κ] :
    ∀ (l : List (κ × List α)) (k : κ) (v : α), k ∉ l.map Prod.fst →
    appendEntry l k v = l ++ [(k, [v])] := by
  intro l
  induction l with
  | nil => intro k v _; rfl
  | cons p rest ih =>
    intro k v h
    obtain ⟨k1, v1⟩ := p
    simp only [List.map_cons, List.mem_cons] at h
    push_neg at h
    simp only [appendEntry]
    rw [if_neg (Ne.symm h.1), ih k v h.2]
    rfl

theorem foldl_recordEnc_encode_sizes :
    ∀ (meas : List (Codec × Nat × Nat)) (st : BytesizeState),
    (meas.map (fun m => m.1.cid)).Nodup →
    (∀ m ∈ meas, m.1.cid ∉ st.encode_sizes.map Prod.fst) →
    (meas.foldl recordEnc st).encode_sizes =
      st.encode_sizes ++ meas.map (fun m => (m.1.cid, [⟨m.2.1, m.2.2⟩])) := by
  intro meas
  induction meas with
  | nil => intro st _ _; simp
  | cons m rest ih =>
    intro st hnodup hfresh
    have hnodup1 : (rest.map (fun m => m.1.cid)).Nodup := by
      simp only [List.map_cons, List.nodup_cons] at hnodup
      exact hnodup.2
    have hne : ∀ m2 ∈ rest, m2.1.cid ≠ m.1.cid := by
      intro m2 hm2 hcontra
      simp only [List.map_cons, List.nodup_cons] at hnodup
      exact hnodup.1 (by rw [← hcontra]; exact List.mem_map_of_mem _ hm2)
    have hes : (recordEnc st m).encode_sizes =
        st.encode_sizes ++ [(m.1.cid, [⟨m.2.1, m.2.2⟩])] := by
      simp only [recordEnc]
      exact appendEntry_not_mem _ _ _ (hfresh m (by simp))
    have hfresh2 : ∀ m2 ∈ rest, m2.1.cid ∉ (recordEnc st m).encode_sizes.map Prod.fst := by
      intro m2 hm2
      rw [hes]
      simp only [List.map_append, List.mem_append, List.map_cons, List.map_nil]
      push_neg
      exact ⟨hfresh m2 (List.mem_cons_of_mem _ hm2), by simpa using hne m2 hm2⟩
    simp only [List.foldl_cons]
    rw [ih (recordEnc st m) hnodup1 hfresh2, hes]
    simp

theorem foldl_recordDec_decode_sizes :
    ∀ (meas : List (Codec × Nat × Nat)) (st : BytesizeState),
    (meas.map (fun m => m.1.cid)).Nodup →
    (∀ m ∈ meas, m.1.cid ∉ st.decode_sizes.map Prod.fst) →
    (meas.foldl recordDec st).decode_sizes =
      st.decode_sizes ++ meas.map (fun m => (m.1.cid, [⟨m.2.1, m.2.2⟩])) := by
  intro meas
  induction meas with
  | nil => intro st _ _; simp
  | cons m rest ih =>
    intro st hnodup hfresh
    have hnodup1 : (rest.map (fun m => m.1.cid)).Nodup := by
      simp only [List.map_cons, List.nodup_cons] at hnodup
      exact hnodup.2
    have hne : ∀ m2 ∈ rest, m2.1.cid ≠ m.1.cid := by
      intro m2 hm2 hcontra
      simp only [List.map_cons, List.nodup_cons] at hnodup
      exact hnodup.1 (by rw [← hcontra]; exact List.mem_map_of_mem _ hm2)
    have hes : (recordDec st m).decode_sizes =
        st.decode_sizes ++ [(m.1.cid, [⟨m.2.1, m.2.2⟩])] := by
      simp only [recordDec]
      exact appendEntry_not_mem _ _ _ (hfresh m (by simp))
    have hfresh2 : ∀ m2 ∈ rest, m2.1.cid ∉ (recordDec st m).decode_sizes.map Prod.fst := by
      intro m2 hm2
      rw [hes]
      simp only [List.map_append, List.mem_append, List.map_cons, List.map_nil]
      push_neg
      exact ⟨hfresh m2 (List.mem_cons_of_mem _ hm2), by simpa using hne m2 hm2⟩
    simp only [List.foldl_cons]
    rw [ih (recordDec st m) hnodup1 hfresh2, hes]
    simp

theorem foldl_recordEnc_decode_sizes :
    ∀ (meas : List (Codec × Nat × Nat)) (st : BytesizeState),
    (meas.foldl recordEnc st).decode_sizes = st.decode_sizes := by
  intro meas
  induction meas with
  | nil => intro st; rfl
  | cons m rest ih => intro st; simp only [List.foldl_cons]; rw [ih]; rfl

theorem foldl_recordDec_encode_sizes :
    ∀ (meas : List (Codec × Nat × Nat)) (st : BytesizeState),
    (meas.foldl recordDec st).encode_sizes = st.encode_sizes := by
  intro meas
  induction meas with
  | nil => intro st; rfl
  | cons m rest ih => intro st; simp only [List.foldl_cons]; rw [ih]; rfl

theorem edEncodePhase_stages : ∀ (l : List Codec) (b b1 : Buf) (sils : List Sil)
    (meas : List (Codec × Nat × Nat)), edEncodePhase l b = .ok (b1, sils, meas) →
    meas.map (fun m => m.1) = l ∧ sils.length = l.length := by
  intro l
  induction l with
  | nil =>
    intro b b1 sils meas h
    simp only [edEncodePhase, Except.ok.injEq, Prod.mk.injEq] at h
    simp [← h.2.1, ← h.2.2]
  | cons c rest ih =>
    intro b b1 sils meas h
    simp only [edEncodePhase] at h
    split at h
    · simp at h
    · rename_i enc henc
      split at h
      · simp at h
      · rename_i b2 sils2 meas2 hrec
        simp only [Except.ok.injEq, Prod.mk.injEq] at h
        obtain ⟨ihm, ihs⟩ := ih (ensure_contiguous_ndarray_like enc) b2 sils2 meas2 hrec
        simp [← h.2.1, ← h.2.2, ihm, ihs]

theorem edDecodePhase_stages : ∀ (l : List Codec) (b b1 : Buf) (sils : List Sil)
    (meas : List (Codec × Nat × Nat)), edDecodePhase l b sils = .ok (b1, meas) →
    meas.map (fun m => m.1) = l := by
  intro l
  induction l with
  | nil =>
    intro b b1 sils meas h
    simp only [edDecodePhase, Except.ok.injEq, Prod.mk.injEq] at h
    simp [← h.2]
  | cons c rest ih =>
    intro b b1 sils meas h
    simp only [edDecodePhase] at h
    split at h
    · simp at h
    · rename_i sils1 sil hp
      split at h
      · simp at h
      · rename_i dec hdecod
        split at h
        · simp at h
        · rename_i b2 meas2 hrec
          simp only [Except.ok.injEq, Prod.mk.injEq] at h
          have ihm := ih (dec.reshape sil.1) b2 sils1 meas2 hrec
          simp [← h.2, ihm]

/-- C6: running `encode_decode` on an `n`-stage stack with a byte-size
observer records exactly one encode measurement per stage (keyed by the
stage's instance identity, in stage order) and one decode measurement
per reverse-order stage, each holding the byte sizes of the actual
buffers immediately before and after that stage's call, as computed by
the reference recursions `edEncodePhase`/`edDecodePhase`. -/
theorem C6_observer_completeness (s : List Codec) (buf : Buf)
    (hnodup : (s.map (fun c => c.cid)).Nodup)
    (bEnc : Buf) (sils : List Sil) (encM decM : List (Codec × Nat × Nat)) (res : Buf)
    (hE : edEncodePhase s (ensure_contiguous_ndarray_like buf) = .ok (bEnc, sils, encM))
    (hD : edDecodePhase s.reverse bEnc sils = .ok (res, decM)) :
    CodecStack.encode_decode [bytesizeHooks] s buf BytesizeState.init =
      (.ok res, decM.foldl recordDec (encM.foldl recordEnc BytesizeState.init)) ∧
    (decM.foldl recordDec (encM.foldl recordEnc BytesizeState.init)).encode_sizes =
      encM.map (fun m => (m.1.cid, [⟨m.2.1, m.2.2⟩])) ∧
    (decM.foldl recordDec (encM.foldl recordEnc BytesizeState.init)).decode_sizes =
      decM.map (fun m => (m.1.cid, [⟨m.2.1, m.2.2⟩])) ∧
    encM.map (fun m => m.1) = s ∧
    decM.map (fun m => m.1) = s.reverse := by
  obtain ⟨hEm, _⟩ := edEncodePhase_stages s _ bEnc sils encM hE
  have hDm := edDecodePhase_stages s.reverse bEnc res sils decM hD
  have hEnodup : (encM.map (fun m => m.1.cid)).Nodup := by
    have hcomp : encM.map (fun m => m.1.cid) = (encM.map (fun m => m.1)).map
        (fun c => c.cid) := by simp [List.map_map]
    rw [hcomp, hEm]
    exact hnodup
  have hDnodup : (decM.map (fun m => m.1.cid)).Nodup := by
    have hcomp : decM.map (fun m => m.1.cid) = (decM.map (fun m => m.1)).map
        (fun c => c.cid) := by simp [List.map_map]
    rw [hcomp, hDm]
    simp only [List.map_reverse, List.nodup_reverse]
    exact hnodup
  refine ⟨?_, ?_, ?_, hEm, hDm⟩
  · unfold CodecStack.encode_decode
    rw [encGo_bytesize s (ensure_contiguous_ndarray_like buf) [] BytesizeState.init
      bEnc sils encM hE]
    simp only [List.nil_append]
    exact decGo_bytesize s.reverse bEnc sils (encM.foldl recordEnc BytesizeState.init)
      res decM hD
  · rw [foldl_recordDec_encode_sizes,
      foldl_recordEnc_encode_sizes encM BytesizeState.init hEnodup (by intro m _; simp [BytesizeState.init])]
    rfl
  · rw [foldl_recordDec_decode_sizes decM _ hDnodup
      (by intro m _; rw [foldl_recordEnc_decode_sizes]; simp [BytesizeState.init])]
    rw [foldl_recordEnc_decode_sizes]
    rfl

/-- C6 witness: a concrete two-stage stack with a fresh byte-size
observer. -/
theorem C6_witness :
    (([cSz1, cSz2].map (fun c => c.cid)).Nodup ∧
      edEncodePhase [cSz1, cSz2] (ensure_contiguous_ndarray_like b6) =
        .ok (⟨[2], u1, [5, 6], true⟩, [([2], u1), ([2], u1)],
          [(cSz1, 2, 2), (cSz2, 2, 2)]) ∧
      edDecodePhase [cSz1, cSz2].reverse ⟨[2], u1, [5, 6], true⟩
          [([2], u1), ([2], u1)] =
        .ok (⟨[2], u1, [5, 6], true⟩, [(cSz2, 2, 2), (cSz1, 2, 2)])) ∧
    (CodecStack.encode_decode [bytesizeHooks] [cSz1, cSz2] b6 BytesizeState.init =
      (.ok ⟨[2], u1, [5, 6], true⟩,
        [(cSz2, 2, 2), (cSz1, 2, 2)].foldl recordDec
          ([(cSz1, 2, 2), (cSz2, 2, 2)].foldl recordEnc BytesizeState.init)) ∧
    ([(cSz2, 2, 2), (cSz1, 2, 2)].foldl recordDec
        ([(cSz1, 2, 2), (cSz2, 2, 2)].foldl recordEnc BytesizeState.init)).encode_sizes =
      [(cSz1, 2, 2), (cSz2, 2, 2)].map (fun m => (m.1.cid, [⟨m.2.1, m.2.2⟩])) ∧
    ([(cSz2, 2, 2), (cSz1, 2, 2)].foldl recordDec
        ([(cSz1, 2, 2), (cSz2, 2, 2)].foldl recordEnc BytesizeState.init)).decode_sizes =
      [(cSz2, 2, 2), (cSz1, 2, 2)].map (fun m => (m.1.cid, [⟨m.2.1, m.2.2⟩])) ∧
    [(cSz1, 2, 2), (cSz2, 2, 2)].map (fun m => m.1) = [cSz1, cSz2] ∧
    [(cSz2, 2, 2), (cSz1, 2, 2)].map (fun m => m.1) = [cSz1, cSz2].reverse) :=
  ⟨⟨by decide, rfl, rfl⟩,
   C6_observer_completeness [cSz1, cSz2] b6 (by decide) ⟨[2], u1, [5, 6], true⟩
     [([2], u1), ([2], u1)] [(cSz1, 2, 2), (cSz2, 2, 2)] [(cSz2, 2, 2), (cSz1, 2, 2)]
     ⟨[2], u1, [5, 6], true⟩ rfl rfl⟩

theorem dictInsert_keys_mem {κ α : Type} [DecidableEq κ] :
    ∀ (l : List (κ × α)) (k : κ) (v : α) (k1 : κ),
    k1 ∈ (dictInsert l k v).map Prod.fst ↔ k1 ∈ l.map Prod.fst ∨ k1 = k := by
  intro l
  induction l with
  | nil => intro k v k1; simp [dictInsert]
  | cons p rest ih =>
    intro k v k1
    obtain ⟨k2, v2⟩ := p
    simp only [dictInsert]
    split
    · rename_i heq
      subst heq
      simp only [List.map_cons, List.mem_cons]
      tauto
    · simp only [List.map_cons, List.mem_cons, ih]
      tauto

theorem dictInsert_keys_nodup {κ α : Type} [DecidableEq κ] :
    ∀ (l : List (κ × α)) (k : κ) (v : α), (l.map Prod.fst).Nodup →
    ((dictInsert l k v).map Prod.fst).Nodup := by
  intro l
  induction l with
  | nil => intro k v _; simp [dictInsert]
  | cons p rest ih =>
    intro k v h
    obtain ⟨k2, v2⟩ := p
    simp only [List.map_cons, List.nodup_cons] at h
    simp only [dictInsert]
    split
    · simp only [List.map_cons, List.nodup_cons]
      exact h
    · rename_i hne
      simp only [List.map_cons, List.nodup_cons]
      constructor
      · rw [dictInsert_keys_mem]
        push_neg
        exact ⟨h.1, hne⟩
      · exact ih k v h.2

theorem resultsDict_keys_nodup {α : Type} (codecs : List (Nat × Codec)) :
    ∀ (entries : List (Nat × α)) (acc res : List (String × α)),
    (acc.map Prod.fst).Nodup → resultsDict codecs entries acc = .ok res →
    (res.map Prod.fst).Nodup := by
  intro entries
  induction entries with
  | nil =>
    intro acc res hacc h
    simp only [resultsDict, Except.ok.injEq] at h
    rw [← h]
    exact hacc
  | cons p rest ih =>
    intro acc res hacc h
    obtain ⟨k, ts⟩ := p
    simp only [resultsDict] at h
    split at h
    · simp at h
    · rename_i c hc
      exact ih (dictInsert acc c.rep ts) res (dictInsert_keys_nodup acc c.rep ts hacc) h

theorem resultsDict_key_mono {α : Type} (codecs : List (Nat × Codec)) :
    ∀ (entries : List (Nat × α)) (acc res : List (String × α)) (k : String),
    k ∈ acc.map Prod.fst → resultsDict codecs entries acc = .ok res →
    k ∈ res.map Prod.fst := by
  intro entries
  induction entries with
  | nil =>
    intro acc res k hk h
    simp only [resultsDict, Except.ok.injEq] at h
    rw [← h]
    exact hk
  | cons p rest ih =>
    intro acc res k hk h
    obtain ⟨k2, ts⟩ := p
    simp only [resultsDict] at h
    split at h
    · simp at h
    · rename_i c hc
      exact ih _ res k ((dictInsert_keys_mem acc c.rep ts k).mpr (Or.inl hk)) h

theorem resultsDict_key_of_entry {α : Type} (codecs : List (Nat × Codec)) :
    ∀ (entries : List (Nat × α)) (acc res : List (String × α)) (i : Nat) (l : α)
      (c : Codec),
    (i, l) ∈ entries → alookup codecs i = some c →
    resultsDict codecs entries acc = .ok res → c.rep ∈ res.map Prod.fst := by
  intro entries
  induction entries with
  | nil => intro acc res i l c hm _ _; simp at hm
  | cons p rest ih =>
    intro acc res i l c hm hlook h
    obtain ⟨k2, ts⟩ := p
    simp only [resultsDict] at h
    split at h
    · simp at h
    · rename_i c2 hc2
      rcases List.mem_cons.mp hm with heq | hrest
      · injection heq with h1 h2
        subst h1
        rw [hlook] at hc2
        injection hc2 with hc
        subst hc
        exact resultsDict_key_mono codecs rest _ res c.rep
          ((dictInsert_keys_mem acc c.rep ts c.rep).mpr (Or.inr rfl)) h
      · exact ih _ res i l c hrest hlook h

theorem countKey_two_mem {κ α : Type} [DecidableEq κ] :
    ∀ (l : List (κ × α)) (k : κ) (v1 v2 : α),
    (k, v1) ∈ l → (k, v2) ∈ l → v1 ≠ v2 → 2 ≤ countKey k l := by
  intro l
  induction l with
  | nil => intro k v1 v2 h1 _ _; simp at h1
  | cons p rest ih =>
    intro k v1 v2 h1 h2 hne
    by_cases hp : p.1 = k
    · have hcount : countKey k (p :: rest) = countKey k rest + 1 := by
        simp [countKey, List.count_cons, hp]
      have hone : (k, v1) ∈ rest ∨ (k, v2) ∈ rest := by
        rcases List.mem_cons.mp h1 with he1 | hr1
        · rcases List.mem_cons.mp h2 with he2 | hr2
          · rw [← he1] at he2
            injection he2 with _ hv
            exact absurd hv.symm hne
          · exact Or.inr hr2
        · exact Or.inl hr1
      have hpos : 1 ≤ countKey k rest := by
        rcases hone with hmem | hmem <;>
          exact List.count_pos_iff.mpr (by simpa using List.mem_map_of_mem Prod.fst hmem)
      omega
    · have h1r : (k, v1) ∈ rest := by
        rcases List.mem_cons.mp h1 with he1 | hr1
        · rw [← he1] at hp; simp at hp
        · exact hr1
      have h2r : (k, v2) ∈ rest := by
        rcases List.mem_cons.mp h2 with he2 | hr2
        · rw [← he2] at hp; simp at hp
        · exact hr2
      have hcount : countKey k (p :: rest) = countKey k rest := by
        simp [countKey, List.count_cons, hp]
      have := ih k v1 v2 h1r h2r hne
      omega

theorem resultsDict_collision {α : Type} (codecs : List (Nat × Codec))
    (entries : List (Nat × α)) (i1 i2 : Nat) (l1 l2 : α) (c1 c2 : Codec)
    (encs : List (String × α))
    (h1 : (i1, l1) ∈ entries) (h2 : (i2, l2) ∈ entries)
    (ha1 : alookup codecs i1 = some c1) (ha2 : alookup codecs i2 = some c2)
    (hrep : c1.rep = c2.rep) (hne : l1 ≠ l2)
    (hres : resultsDict codecs entries [] = .ok encs) :
    countKey c1.rep encs = 1 ∧ ((c1.rep, l1) ∉ encs ∨ (c1.rep, l2) ∉ encs) := by
  have hnodup := resultsDict_keys_nodup codecs entries [] encs (by simp) hres
  have hmem := resultsDict_key_of_entry codecs entries [] encs i1 l1 c1 h1 ha1 hres
  have hcount : countKey c1.rep encs = 1 := by
    unfold countKey
    exact List.count_eq_one_of_mem hnodup hmem
  refine ⟨hcount, ?_⟩
  by_contra hcon
  push_neg at hcon
  have h2c := countKey_two_mem encs c1.rep l1 l2 hcon.1 hcon.2 hne
  omega

/-- C9: both observers accumulate measurements keyed by codec instance
identity, but their `results()` summaries are keyed by codec repr; when
two distinct instances recorded by the same observer have equal repr,
the summary holds exactly one binding under that repr, so only one of
their per-instance measurement lists appears under that key and the
other instance's list is absent from it. -/
theorem C9_repr_collision :
    (∀ (st : BytesizeState) (i1 i2 : Nat) (l1 l2 : List Bytesize) (c1 c2 : Codec)
        (res : List (String × List Bytesize) × List (String × List Bytesize)),
      i1 ≠ i2 → (i1, l1) ∈ st.encode_sizes → (i2, l2) ∈ st.encode_sizes →
      alookup st.codecs i1 = some c1 → alookup st.codecs i2 = some c2 →
      c1.rep = c2.rep → l1 ≠ l2 → ByesizeObserver.results st = .ok res →
      countKey c1.rep res.1 = 1 ∧ ((c1.rep, l1) ∉ res.1 ∨ (c1.rep, l2) ∉ res.1)) ∧
    (∀ (st : WalltimeState) (i1 i2 : Nat) (l1 l2 : List Nat) (c1 c2 : Codec)
        (res : List (String × List Nat) × List (String × List Nat)),
      i1 ≠ i2 → (i1, l1) ∈ st.encode_times → (i2, l2) ∈ st.encode_times →
      alookup st.codecs i1 = some c1 → alookup st.codecs i2 = some c2 →
      c1.rep = c2.rep → l1 ≠ l2 → WalltimeObserver.results st = .ok res →
      countKey c1.rep res.1 = 1 ∧ ((c1.rep, l1) ∉ res.1 ∨ (c1.rep, l2) ∉ res.1)) := by
  constructor
  · intro st i1 i2 l1 l2 c1 c2 res _ h1 h2 ha1 ha2 hrep hne hres
    unfold ByesizeObserver.results at hres
    split at hres
    · simp at hres
    · rename_i encs hencs
      split at hres
      · simp at hres
      · rename_i decs hdecs
        simp only [Except.ok.injEq] at hres
        have hcol := resultsDict_collision st.codecs st.encode_sizes i1 i2 l1 l2 c1 c2
          encs h1 h2 ha1 ha2 hrep hne hencs
        rw [← hres]
        exact hcol
  · intro st i1 i2 l1 l2 c1 c2 res _ h1 h2 ha1 ha2 hrep hne hres
    unfold WalltimeObserver.results at hres
    split at hres
    · simp at hres
    · rename_i encs hencs
      split at hres
      · simp at hres
      · rename_i decs hdecs
        simp only [Except.ok.injEq] at hres
        have hcol := resultsDict_collision st.codecs st.encode_times i1 i2 l1 l2 c1 c2
          encs h1 h2 ha1 ha2 hrep hne hencs
        rw [← hres]
        exact hcol

/-- C9 witness: two codec instances with equal repr in each observer's
accumulated state, and the collapsed summaries. -/
theorem C9_witness :
    (ByesizeObserver.results st9 = .ok ([("R()", [⟨2, 2⟩])], []) ∧
      countKey cR1.rep ([("R()", [(⟨2, 2⟩ : Bytesize)])],
        ([] : List (String × List Bytesize))).1 = 1 ∧
      ((cR1.rep, [(⟨1, 1⟩ : Bytesize)]) ∉
          ([("R()", [(⟨2, 2⟩ : Bytesize)])],
            ([] : List (String × List Bytesize))).1 ∨
       (cR1.rep, [(⟨2, 2⟩ : Bytesize)]) ∉
          ([("R()", [(⟨2, 2⟩ : Bytesize)])],
            ([] : List (String × List Bytesize))).1)) ∧
    (WalltimeObserver.results st9w = .ok ([("R()", [6])], []) ∧
      countKey cR1.rep ([("R()", [(6 : Nat)])], ([] : List (String × List Nat))).1 = 1 ∧
      ((cR1.rep, [(5 : Nat)]) ∉
          ([("R()", [(6 : Nat)])], ([] : List (String × List Nat))).1 ∨
       (cR1.rep, [(6 : Nat)]) ∉
          ([("R()", [(6 : Nat)])], ([] : List (String × List Nat))).1)) := by
  have h1 := C9_repr_collision.1 st9 41 42 [⟨1, 1⟩] [⟨2, 2⟩] cR1 cR2
    ([("R()", [⟨2, 2⟩])], []) (by decide) (by decide) (by decide) rfl rfl rfl
    (by decide) rfl
  have h2 := C9_repr_collision.2 st9w 41 42 [5] [6] cR1 cR2
    ([("R()", [6])], []) (by decide) (by decide) (by decide) rfl rfl rfl
    (by decide) rfl
  exact ⟨⟨rfl, h1.1, h1.2⟩, ⟨rfl, h2.1, h2.2⟩⟩

/-- C8 witness: concrete cross-kind nesting failures. -/
theorem C8_witness :
    (stE8.last_encode.isSome = true ∧
      WalltimeObserver.pre_decode cA b10 none stE8 = .error .observerContractViolation) ∧
    (stD8.last_decode.isSome = true ∧
      WalltimeObserver.pre_encode cA b10 stD8 = .error .observerContractViolation) :=
  ⟨⟨rfl, C8_cross_nesting.1 stE8 cA b10 none rfl⟩,
   ⟨rfl, C8_cross_nesting.2 stD8 cA b10 rfl⟩⟩
